import Mathlib

/-!
Verification development for the `TextOverlay` node (`src/nodes.py`) of the
ComfyUI-TextOverlay repository.

Strings are embedded as `List Char`; Python floats are embedded as exact
rationals `ℚ` (every concrete value used in a theorem below is exactly
representable in binary floating point, so the Python float computation and
the rational model agree on it); fallible code returns `Except`.
-/

/-! ## Python string primitives used by `nodes.py` -/

/-- Whitespace test used by Python `str.strip()` (the ASCII whitespace
characters; the source only ever strips spaces and newlines). -/
def pyws (c : Char) : Bool :=
  c == ' ' || c == '\t' || c == '\n' || c == '\r' || c == '\x0b' || c == '\x0c'

/-- Python `s.strip()`: drop whitespace from both ends. -/
def strip (l : List Char) : List Char :=
  ((l.dropWhile pyws).reverse.dropWhile pyws).reverse

/-- Python `s.split(sep)` for a single-character separator: non-collapsing
split on every occurrence of `sep` (`"".split(" ") = [""]`,
`"a  b".split(" ") = ["a", "", "b"]`). -/
def pysplit (sep : Char) : List Char → List (List Char)
  | [] => [[]]
  | c :: cs =>
    match pysplit sep cs with
    | [] => [[c]]
    | t :: ts => if c = sep then [] :: t :: ts else (c :: t) :: ts

/-- Python `text.replace("\n", "\n ")` (nodes.py line 190). -/
def pyreplace_nl : List Char → List Char
  | [] => []
  | c :: cs => if c = '\n' then '\n' :: ' ' :: pyreplace_nl cs else c :: pyreplace_nl cs

/-- Python `int(...)` applied to an exact rational: truncation toward zero
(floor for non-negative arguments, ceiling for negative ones). -/
def pytrunc (q : ℚ) : ℤ :=
  if q < 0 then -⌊-q⌋ else ⌊q⌋

/-! ## Color normalization (`TextOverlay.hex_to_rgba`, nodes.py lines 108-127) -/

/-- Value of a single hexadecimal digit, as accepted by Python `int(_, 16)`. -/
def hexVal? (c : Char) : Option ℤ :=
  if '0' ≤ c ∧ c ≤ '9' then some ((c.toNat : ℤ) - 48)
  else if 'a' ≤ c ∧ c ≤ 'f' then some ((c.toNat : ℤ) - 87)
  else if 'A' ≤ c ∧ c ≤ 'F' then some ((c.toNat : ℤ) - 55)
  else none

/-- Python `int(s, 16)` on the two-character slices taken at lines 122 and 125
of nodes.py, restricted to plain hex digits (Python's `int` also tolerates
signs and surrounding whitespace inside a slice; no claim depends on such
inputs). -/
def parseByte? : List Char → Option ℤ
  | [c1, c2] =>
    match hexVal? c1, hexVal? c2 with
    | some hi, some lo => some (16 * hi + lo)
    | _, _ => none
  | _ => none

/-- Python `''.join(c * 2 for c in hex_color)` (nodes.py line 119). -/
def double : List Char → List Char
  | [] => []
  | c :: cs => c :: c :: double cs

/-- Expansion step of `hex_to_rgba`: 3- and 4-digit forms are doubled
(nodes.py lines 118-119). -/
def expand (h : List Char) : List Char :=
  if h.length = 3 ∨ h.length = 4 then double h else h

/-- Body of `hex_to_rgba` after validation and expansion (nodes.py lines
121-127): parse red/green/blue from the byte slices at offsets 0/2/4, and take
alpha from the fourth byte when the expanded string has 8 digits, else
`int(255 * opacity)`. -/
def parseRGBA (h2 : List Char) (opacity : ℚ) : Except String (ℤ × ℤ × ℤ × ℤ) :=
  match parseByte? (h2.take 2), parseByte? ((h2.drop 2).take 2), parseByte? ((h2.drop 4).take 2) with
  | some r, some g, some b =>
    if h2.length = 8 then
      match parseByte? ((h2.drop 6).take 2) with
      | some a => Except.ok (r, g, b, a)
      | none => Except.error "invalid literal for int with base 16"
    else Except.ok (r, g, b, pytrunc (255 * opacity))
  | _, _, _ => Except.error "invalid literal for int with base 16"

/-- `TextOverlay.hex_to_rgba(hex_color, opacity=1.0)` (nodes.py lines
108-127): `lstrip("#")` removes every leading `'#'`; lengths outside
{3,4,6,8} raise `ValueError`. -/
def hex_to_rgba (hex_color : List Char) (opacity : ℚ := 1) : Except String (ℤ × ℤ × ℤ × ℤ) :=
  let h := hex_color.dropWhile (fun c => c == '#')
  if h.length = 3 ∨ h.length = 4 ∨ h.length = 6 ∨ h.length = 8 then parseRGBA (expand h) opacity
  else Except.error "Invalid hex color format"

/-! ## Stroke width (nodes.py lines 216 and 245) -/

/-- Stroke width passed to `draw.multiline_textbbox` (nodes.py line 216):
`int(font_size * stroke_thickness * 0.5)`. -/
def measure_stroke_width (font_size stroke_thickness : ℚ) : ℤ :=
  pytrunc (font_size * stroke_thickness * (1 / 2))

/-- Stroke width passed to `draw.text` (nodes.py line 245):
`int(font_size * stroke_thickness * 0.5)`. -/
def draw_stroke_width (font_size stroke_thickness : ℚ) : ℤ :=
  pytrunc (font_size * stroke_thickness * (1 / 2))

/-! ## Greedy line wrap (`draw_text`, nodes.py lines 189-208) -/

/-- Tokenization at nodes.py line 190:
`words = text.replace("\n", "\n ").split(" ")`. -/
def tokenize (text : List Char) : List (List Char) :=
  pysplit ' ' (pyreplace_nl text)

/-- One iteration of the wrap loop (nodes.py lines 193-206).  The state is
`(text_lines, line)`.  `extra_line` is tested on the raw token, the token is
then stripped; the fit test measures `line + word` (no trailing space) against
`max_width`; a committed token appends `word + " "`; a non-fitting token
flushes `line.strip()` and restarts with `word + " "`; a token that carried a
line break additionally flushes `line.strip()` and empties the line. -/
def wrapStep (measure : List Char → ℚ) (max_width : ℚ)
    (st : List (List Char) × List Char) (w0 : List Char) : List (List Char) × List Char :=
  let word := strip w0
  let st2 : List (List Char) × List Char :=
    if measure (st.2 ++ word) < max_width then (st.1, st.2 ++ word ++ [' '])
    else (st.1 ++ [strip st.2], word ++ [' '])
  if '\n' ∈ w0 then (st2.1 ++ [strip st2.2], []) else st2

/-- Whole wrap loop over a token list, including the unconditional final
`text_lines.append(line.strip())` at nodes.py line 207. -/
def wrapTokens (measure : List Char → ℚ) (max_width : ℚ) (ws : List (List Char)) :
    List (List Char) :=
  let st := ws.foldl (wrapStep measure max_width) ([], [])
  st.1 ++ [strip st.2]

/-- Wrap of a raw text, as computed into `self._full_text` (before the final
`"\n".join`); `max_width` stands for `image.width - 2 * padding`. -/
def wrapLines (measure : List Char → ℚ) (max_width : ℚ) (text : List Char) :
    List (List Char) :=
  wrapTokens measure max_width (tokenize text)

/-! ## Placement (nodes.py lines 220-233) -/

/-- Horizontal placement (nodes.py lines 220-226).  The code assigns
`self._x` in an `if/elif` chain over the alignment string and then adds
`x_shift`; an unrecognized alignment leaves `self._x` unset (`none`). -/
def place_x (h_align : String) (width text_left text_right padding x_shift : ℚ) : Option ℚ :=
  let x0 : Option ℚ :=
    if h_align = "left" then some padding
    else if h_align = "center" then some ((width - (text_right - text_left)) / 2)
    else if h_align = "right" then some (width - (text_right - text_left) - padding)
    else none
  x0.map (fun x => x + x_shift)

/-- Vertical placement (nodes.py lines 227-233), with the code's branch order
(middle, top, bottom) and `y_shift` added at the end. -/
def place_y (v_align : String) (height text_top text_bottom padding y_shift : ℚ) : Option ℚ :=
  let y0 : Option ℚ :=
    if v_align = "middle" then some ((height - (text_bottom - text_top)) / 2)
    else if v_align = "top" then some padding
    else if v_align = "bottom" then some (height - (text_bottom - text_top) - padding)
    else none
  y0.map (fun y => y + y_shift)

/-! ## Stroke color dataflow of `draw_text` / `batch_process` -/

/-- Python's implicit bool-to-number coercion (`255 * False = 0`,
`255 * True = 255`). -/
def pyBool (b : Bool) : ℚ := if b then 1 else 0

/-- Stroke color computed by `draw_text` (nodes.py line 237):
`self.hex_to_rgba(stroke_color_hex, stroke_opacity)`.  In single-image mode
(nodes.py lines 296-311) `draw_text` receives the caller's `stroke_opacity`
in this slot. -/
def single_stroke_color (stroke_color_hex : List Char) (stroke_opacity : ℚ) :
    Except String (ℤ × ℤ × ℤ × ℤ) :=
  hex_to_rgba stroke_color_hex stroke_opacity

/-- Per-image stroke colors produced by the batch branch of `batch_process`
(nodes.py lines 318-337).  The loop starts with `use_cache = False`, sets it
to `True` after the first image, and calls `draw_text` with fourteen
positional arguments whose last one is `use_cache` — which binds to
`draw_text`'s `stroke_opacity` parameter (the fourteenth), while `use_cache`
itself keeps its default `False`.  So image `i` is drawn with stroke opacity
`pyBool (i ≠ 0)` and the caller's `stroke_opacity` argument is never used. -/
def batch_stroke_colors (stroke_color_hex : List Char) (stroke_opacity : ℚ) (n : ℕ) :
    List (Except String (ℤ × ℤ × ℤ × ℤ)) :=
  (List.range n).map (fun i => hex_to_rgba stroke_color_hex (pyBool (if i = 0 then false else true)))

/-! ## Claim-side reference definitions (for refinement comparisons) -/

/-- Interpretation of claim C6's phrase "strips an optional leading '#'":
remove at most one leading `'#'` (the source instead strips every leading
`'#'` via `lstrip("#")`). -/
def stripOneHash : List Char → List Char
  | '#' :: rest => rest
  | l => l

/-- Removal of a trailing run of spaces, the "stripped of trailing space"
operation of the spec's reference wrap algorithm. -/
def rstripSpace (l : List Char) : List Char :=
  (l.reverse.dropWhile (fun c => c == ' ')).reverse

/-- Modelled from the spec's words (section 4.1, quoted by claim C2): the
greedy reference wrap.  For each token (stripped before measurement),
tentatively append the token plus a trailing space to `line` and measure the
tentative line; commit when the measured width is strictly below `max_width`,
otherwise flush the current line stripped of trailing space and start a new
line containing just the token (kept with its trailing space, consistently
with committed tokens); a token carrying a forced break flushes immediately
after being placed; at the end flush any remaining non-empty line. -/
def specRefWrap (measure : List Char → ℚ) (max_width : ℚ) :
    List (List Char) → List Char → List (List Char)
  | [], line => if line = [] then [] else [rstripSpace line]
  | w0 :: ws, line =>
    let word := strip w0
    let tentative := line ++ word ++ [' ']
    if measure tentative < max_width then
      if '\n' ∈ w0 then rstripSpace tentative :: specRefWrap measure max_width ws []
      else specRefWrap measure max_width ws tentative
    else
      if '\n' ∈ w0 then
        rstripSpace line :: rstripSpace (word ++ [' ']) :: specRefWrap measure max_width ws []
      else rstripSpace line :: specRefWrap measure max_width ws (word ++ [' '])

/-- Reference wrap amended to match the source (claim C2 amended): the fit
test measures the current line (which retains a trailing space after each
committed token) concatenated with the stripped token and no additional
trailing space; flushed lines are stripped of surrounding whitespace on both
ends; after all tokens the final line is flushed unconditionally, even when
empty. -/
def amendedWrap (measure : List Char → ℚ) (max_width : ℚ) :
    List (List Char) → List Char → List (List Char)
  | [], line => [strip line]
  | w0 :: ws, line =>
    let word := strip w0
    if measure (line ++ word) < max_width then
      if '\n' ∈ w0 then strip (line ++ word ++ [' ']) :: amendedWrap measure max_width ws []
      else amendedWrap measure max_width ws (line ++ word ++ [' '])
    else
      if '\n' ∈ w0 then
        strip line :: strip (word ++ [' ']) :: amendedWrap measure max_width ws []
      else strip line :: amendedWrap measure max_width ws (word ++ [' '])

/-- Number of words on a line: nonempty fields of a single-space split. -/
def countWords (l : List Char) : ℕ :=
  ((pysplit ' ' l).filter (fun t => !t.isEmpty)).length

/-! ## Claim C3 -/

/-- C3: for every bounding box, canvas size, padding and shifts, the computed
origin follows exactly the padding / centering / far-edge formulas of the spec
in each of the three alignments per axis, with the shift added afterwards and
no clamping applied. -/
theorem placement_formulas (width height text_left text_top text_right text_bottom
    padding x_shift y_shift : ℚ) :
    place_x "left" width text_left text_right padding x_shift = some (padding + x_shift)
    ∧ place_x "center" width text_left text_right padding x_shift
        = some ((width - (text_right - text_left)) / 2 + x_shift)
    ∧ place_x "right" width text_left text_right padding x_shift
        = some (width - (text_right - text_left) - padding + x_shift)
    ∧ place_y "top" height text_top text_bottom padding y_shift = some (padding + y_shift)
    ∧ place_y "middle" height text_top text_bottom padding y_shift
        = some ((height - (text_bottom - text_top)) / 2 + y_shift)
    ∧ place_y "bottom" height text_top text_bottom padding y_shift
        = some (height - (text_bottom - text_top) - padding + y_shift) := by
  refine ⟨?_, ?_, ?_, ?_, ?_, ?_⟩ <;> rfl

/-! ## Claim C1 -/

/-- C1 (code bug): the batch branch of `batch_process` passes the boolean
`use_cache` positionally into `draw_text`'s `stroke_opacity` parameter, so
with `stroke_color_hex = "#000000"` and `stroke_opacity = 0.4` a two-image
batch draws the first image with stroke alpha `int(255 * False) = 0` and the
second with `int(255 * True) = 255`, while single-image mode uses
`int(255 * 0.4) = 102`: the per-image stroke colors are neither derived from
the caller's `stroke_opacity` nor identical across the batch. -/
theorem batch_stroke_color_bug :
    batch_stroke_colors ['#','0','0','0','0','0','0'] (2/5) 2
      = [Except.ok (0, 0, 0, 0), Except.ok (0, 0, 0, 255)]
    ∧ single_stroke_color ['#','0','0','0','0','0','0'] (2/5) = Except.ok (0, 0, 0, 102)
    ∧ (Except.ok (0, 0, 0, (0:ℤ)) : Except String (ℤ × ℤ × ℤ × ℤ)) ≠ Except.ok (0, 0, 0, 255) := by
  have h0 : pytrunc (255 * (0:ℚ)) = 0 := by norm_num [pytrunc]
  have h1 : pytrunc (255 * (1:ℚ)) = 255 := by norm_num [pytrunc]
  have h2 : pytrunc (255 * (2/5 : ℚ)) = 102 := by norm_num [pytrunc]
  refine ⟨?_, ?_, ?_⟩
  · rw [show batch_stroke_colors ['#','0','0','0','0','0','0'] (2/5) 2
        = [Except.ok (0, 0, 0, pytrunc (255 * (0:ℚ))),
           Except.ok (0, 0, 0, pytrunc (255 * (1:ℚ)))] from rfl, h0, h1]
  · rw [show single_stroke_color ['#','0','0','0','0','0','0'] (2/5)
        = Except.ok (0, 0, 0, pytrunc (255 * (2/5 : ℚ))) from rfl, h2]
  · simp [Prod.ext_iff]

/-! ## Claim C4 -/

/-- C4 counterexample: with `font_size = 9` and `stroke_thickness = 0.35`
(both within the parameter schema), the product is 1.575; the code's stroke
width is `int(1.575) = 1` at both call sites, while rounding to the nearest
integer gives 2, so the claimed `round` formula is false. -/
theorem stroke_width_round_cex :
    measure_stroke_width 9 (7/20) = 1 ∧ draw_stroke_width 9 (7/20) = 1
    ∧ round ((9:ℚ) * (7/20) * (1/2)) = 2 := by
  refine ⟨?_, ?_, ?_⟩ <;>
    norm_num [measure_stroke_width, draw_stroke_width, pytrunc, round_eq]

/-- C4 amended: for every non-negative font size and stroke-thickness ratio,
the stroke pixel width used for measuring and the one used for drawing agree
and both equal `int(font_size * stroke_thickness * 0.5)`, i.e. the product
truncated toward zero (its floor, the inputs being non-negative) — not
rounded to nearest. -/
theorem stroke_width_trunc (font_size stroke_thickness : ℚ)
    (hf : 0 ≤ font_size) (hs : 0 ≤ stroke_thickness) :
    measure_stroke_width font_size stroke_thickness
      = ⌊font_size * stroke_thickness * (1/2)⌋
    ∧ draw_stroke_width font_size stroke_thickness
      = ⌊font_size * stroke_thickness * (1/2)⌋ := by
  have hq : ¬ (font_size * stroke_thickness * (1/2) < 0) :=
    not_lt.mpr (by positivity)
  constructor <;>
    · simp only [measure_stroke_width, draw_stroke_width, pytrunc]
      rw [if_neg hq]

/-- C4 witness: the amended theorem applied at the schema defaults
`font_size = 32`, `stroke_thickness = 0.2`. -/
theorem stroke_width_trunc_witness :
    (0:ℚ) ≤ 32 ∧ (0:ℚ) ≤ 1/5
    ∧ measure_stroke_width 32 (1/5) = ⌊(32:ℚ) * (1/5) * (1/2)⌋
    ∧ draw_stroke_width 32 (1/5) = ⌊(32:ℚ) * (1/5) * (1/2)⌋ :=
  ⟨by norm_num, by norm_num,
   (stroke_width_trunc 32 (1/5) (by norm_num) (by norm_num)).1,
   (stroke_width_trunc 32 (1/5) (by norm_num) (by norm_num)).2⟩

/-! ## Helper lemmas about hex parsing -/

lemma double_length (l : List Char) : (double l).length = 2 * l.length := by
  induction l with
  | nil => rfl
  | cons c cs ih => simp only [double, List.length_cons, ih]; omega

lemma mem_double {c : Char} {l : List Char} (h : c ∈ double l) : c ∈ l := by
  induction l with
  | nil => simpa [double] using h
  | cons a as ih =>
    simp only [double, List.mem_cons] at h ⊢
    rcases h with h | h | h
    · exact Or.inl h
    · exact Or.inl h
    · exact Or.inr (ih h)

lemma hex_ne_hash {c : Char} (h : (hexVal? c).isSome) : (c == '#') = false := by
  rw [beq_eq_false_iff_ne]
  rintro rfl
  exact absurd h (by decide)

lemma dropWhile_hash_of_hex {l : List Char} (hall : ∀ c ∈ l, (hexVal? c).isSome) :
    l.dropWhile (fun c => c == '#') = l := by
  cases l with
  | nil => rfl
  | cons c t => simp [List.dropWhile_cons, hex_ne_hash (hall c (by simp))]

lemma parseByte?_isSome_take {l : List Char} (h2 : 2 ≤ l.length)
    (hall : ∀ c ∈ l, (hexVal? c).isSome) : (parseByte? (l.take 2)).isSome := by
  rcases l with _ | ⟨c1, l⟩
  · simp at h2
  rcases l with _ | ⟨c2, l⟩
  · simp at h2
  obtain ⟨v1, e1⟩ := Option.isSome_iff_exists.mp (hall c1 (by simp))
  obtain ⟨v2, e2⟩ := Option.isSome_iff_exists.mp (hall c2 (by simp))
  simp [parseByte?, e1, e2]

lemma parseRGBA_ok_of_hex {h2 : List Char} (op : ℚ) (hlen : h2.length = 6 ∨ h2.length = 8)
    (hall : ∀ c ∈ h2, (hexVal? c).isSome) :
    ∃ out, parseRGBA h2 op = Except.ok out := by
  have hlen2 : 2 ≤ h2.length := by rcases hlen with h | h <;> omega
  have t1 := parseByte?_isSome_take hlen2 hall
  have t2 : (parseByte? ((h2.drop 2).take 2)).isSome := by
    apply parseByte?_isSome_take
    · simp only [List.length_drop]; rcases hlen with h | h <;> omega
    · exact fun c hc => hall c (List.drop_subset _ _ hc)
  have t3 : (parseByte? ((h2.drop 4).take 2)).isSome := by
    apply parseByte?_isSome_take
    · simp only [List.length_drop]; rcases hlen with h | h <;> omega
    · exact fun c hc => hall c (List.drop_subset _ _ hc)
  obtain ⟨r, e1⟩ := Option.isSome_iff_exists.mp t1
  obtain ⟨g, e2⟩ := Option.isSome_iff_exists.mp t2
  obtain ⟨b, e3⟩ := Option.isSome_iff_exists.mp t3
  rcases hlen with h6 | h8
  · exact ⟨(r, g, b, pytrunc (255 * op)), by simp [parseRGBA, e1, e2, e3, h6]⟩
  · have t4 : (parseByte? ((h2.drop 6).take 2)).isSome := by
      apply parseByte?_isSome_take
      · simp only [List.length_drop, h8]; omega
      · exact fun c hc => hall c (List.drop_subset _ _ hc)
    obtain ⟨a, e4⟩ := Option.isSome_iff_exists.mp t4
    exact ⟨(r, g, b, a), by simp [parseRGBA, e1, e2, e3, e4, h8]⟩

lemma parseRGBA_op_of_len8 {h2 : List Char} (hl : h2.length = 8) (op op2 : ℚ) :
    parseRGBA h2 op = parseRGBA h2 op2 := by
  unfold parseRGBA
  cases e1 : parseByte? (h2.take 2) <;> cases e2 : parseByte? ((h2.drop 2).take 2) <;>
    cases e3 : parseByte? ((h2.drop 4).take 2) <;> simp [hl]

lemma parseRGBA_alpha_of_len6 {h2 : List Char} (hl : h2.length = 6) (op : ℚ) (r g b a : ℤ)
    (h : parseRGBA h2 op = Except.ok (r, g, b, a)) : a = pytrunc (255 * op) := by
  unfold parseRGBA at h
  rcases e1 : parseByte? (h2.take 2) with _ | r' <;>
    rcases e2 : parseByte? ((h2.drop 2).take 2) with _ | g' <;>
      rcases e3 : parseByte? ((h2.drop 4).take 2) with _ | b' <;>
        rw [e1, e2, e3] at h <;> simp [hl] at h
  exact h.2.2.2.symm

/-! ## Claim C5 -/

/-- C5 counterexample: with opacity 0.5 (a schema-reachable value, exactly
representable as a binary float) parsing "fff" yields alpha
`int(255 * 0.5) = int(127.5) = 127`, while the claimed
`round(255 * opacity)` is 128, so the claim's alpha rule is false. -/
theorem alpha_round_cex :
    hex_to_rgba ['f','f','f'] (1/2) = Except.ok (255, 255, 255, 127)
    ∧ (127 : ℤ) ≠ round ((255:ℚ) * (1/2)) := by
  constructor
  · rw [show hex_to_rgba ['f','f','f'] (1/2)
        = Except.ok (255, 255, 255, pytrunc (255 * (1/2 : ℚ))) from rfl]
    norm_num [pytrunc]
  · norm_num [round_eq]

/-- C5 amended: if the stripped hex string has 4 or 8 digits (so the expanded
string has 8), the result is independent of the opacity argument; parsing
"#11223344" yields exactly (17, 34, 51, 68); and when the stripped string has
3 or 6 digits the returned alpha equals `int(255 * opacity)`, i.e.
`255 * opacity` truncated toward zero — not rounded to nearest. -/
theorem alpha_rule_amended (h : List Char) (op op2 : ℚ) :
    (((h.dropWhile (fun c => c == '#')).length = 4
        ∨ (h.dropWhile (fun c => c == '#')).length = 8)
      → hex_to_rgba h op = hex_to_rgba h op2)
    ∧ hex_to_rgba ['#','1','1','2','2','3','3','4','4'] op = Except.ok (17, 34, 51, 68)
    ∧ (((h.dropWhile (fun c => c == '#')).length = 3
        ∨ (h.dropWhile (fun c => c == '#')).length = 6)
      → ∀ r g b a, hex_to_rgba h op = Except.ok (r, g, b, a) → a = pytrunc (255 * op)) := by
  refine ⟨?_, rfl, ?_⟩
  · intro hl
    simp only [hex_to_rgba]
    rcases hl with h4 | h8
    · rw [if_pos (Or.inr (Or.inl h4)), if_pos (Or.inr (Or.inl h4))]
      have he : expand (h.dropWhile (fun c => c == '#'))
          = double (h.dropWhile (fun c => c == '#')) := by
        unfold expand; rw [if_pos (Or.inr h4)]
      rw [he]
      exact parseRGBA_op_of_len8 (by rw [double_length, h4]) op op2
    · rw [if_pos (Or.inr (Or.inr (Or.inr h8))), if_pos (Or.inr (Or.inr (Or.inr h8)))]
      have he : expand (h.dropWhile (fun c => c == '#'))
          = h.dropWhile (fun c => c == '#') := by
        unfold expand; rw [if_neg (by omega)]
      rw [he]
      exact parseRGBA_op_of_len8 h8 op op2
  · intro hl r g b a hok
    simp only [hex_to_rgba] at hok
    rcases hl with h3 | h6
    · rw [if_pos (Or.inl h3)] at hok
      have he : expand (h.dropWhile (fun c => c == '#'))
          = double (h.dropWhile (fun c => c == '#')) := by
        unfold expand; rw [if_pos (Or.inl h3)]
      rw [he] at hok
      exact parseRGBA_alpha_of_len6 (by rw [double_length, h3]) op r g b a hok
    · rw [if_pos (Or.inr (Or.inr (Or.inl h6)))] at hok
      have he : expand (h.dropWhile (fun c => c == '#'))
          = h.dropWhile (fun c => c == '#') := by
        unfold expand; rw [if_neg (by omega)]
      rw [he] at hok
      exact parseRGBA_alpha_of_len6 h6 op r g b a hok

/-- C5 witness: the amended theorem applied to the 4-digit string "#1234"
(where opacity 1/3 and 2/3 give the same result) and to the 6-digit case
triggered by "fff" with opacity 0.5 (alpha 127 = int(127.5)). -/
theorem alpha_rule_amended_witness :
    hex_to_rgba ['#','1','2','3','4'] (1/3) = hex_to_rgba ['#','1','2','3','4'] (2/3)
    ∧ (127 : ℤ) = pytrunc (255 * (1/2 : ℚ)) := by
  have e : hex_to_rgba ['f','f','f'] (1/2) = Except.ok (255, 255, 255, 127) := by
    rw [show hex_to_rgba ['f','f','f'] (1/2)
        = Except.ok (255, 255, 255, pytrunc (255 * (1/2 : ℚ))) from rfl]
    norm_num [pytrunc]
  exact ⟨(alpha_rule_amended ['#','1','2','3','4'] (1/3) (2/3)).1 (Or.inl (by decide)),
         (alpha_rule_amended ['f','f','f'] (1/2) 0).2.2 (Or.inl (by decide)) 255 255 255 127 e⟩

/-! ## Claim C6 -/

/-- C6 counterexample: the source strips every leading '#' (`lstrip("#")`),
not one optional '#'.  On "###fff" the claim's reading (strip one optional
'#') leaves "##fff" of length 5 ∉ {3,4,6,8}, so the claim demands an
invalid-color-format error, but the code strips all three '#' and happily
returns (255, 255, 255, 255). -/
theorem lstrip_all_hashes_cex :
    (stripOneHash ['#','#','#','f','f','f']).length = 5
    ∧ hex_to_rgba ['#','#','#','f','f','f'] 1 = Except.ok (255, 255, 255, 255) := by
  refine ⟨rfl, ?_⟩
  rw [show hex_to_rgba ['#','#','#','f','f','f'] 1
      = Except.ok (255, 255, 255, pytrunc (255 * (1:ℚ))) from rfl]
  norm_num [pytrunc]

/-- C6 amended: color parsing strips all leading '#' characters and raises an
invalid-color-format error whenever the fully stripped string's length is not
in {3, 4, 6, 8} (in particular parsing "#ab" raises), and does not raise for
any string of valid length composed of hex digits. -/
theorem color_length_validation_amended (h : List Char) (op : ℚ) :
    (¬((h.dropWhile (fun c => c == '#')).length = 3
        ∨ (h.dropWhile (fun c => c == '#')).length = 4
        ∨ (h.dropWhile (fun c => c == '#')).length = 6
        ∨ (h.dropWhile (fun c => c == '#')).length = 8)
      → hex_to_rgba h op = Except.error "Invalid hex color format")
    ∧ hex_to_rgba ['#','a','b'] op = Except.error "Invalid hex color format"
    ∧ ((h.length = 3 ∨ h.length = 4 ∨ h.length = 6 ∨ h.length = 8)
      → (∀ c ∈ h, (hexVal? c).isSome)
      → ∃ out, hex_to_rgba h op = Except.ok out) := by
  refine ⟨?_, rfl, ?_⟩
  · intro hl
    simp only [hex_to_rgba]
    rw [if_neg hl]
  · intro hlen hall
    have hdrop := dropWhile_hash_of_hex hall
    simp only [hex_to_rgba, hdrop]
    rw [if_pos hlen]
    have hallx : ∀ c ∈ expand h, (hexVal? c).isSome := by
      intro c hc
      unfold expand at hc
      by_cases hcase : h.length = 3 ∨ h.length = 4
      · rw [if_pos hcase] at hc; exact hall c (mem_double hc)
      · rw [if_neg hcase] at hc; exact hall c hc
    have hlenx : (expand h).length = 6 ∨ (expand h).length = 8 := by
      unfold expand
      rcases hlen with h3 | h4 | h6 | h8
      · rw [if_pos (Or.inl h3), double_length, h3]; omega
      · rw [if_pos (Or.inr h4), double_length, h4]; omega
      · rw [if_neg (by omega), h6]; omega
      · rw [if_neg (by omega), h8]; omega
    exact parseRGBA_ok_of_hex op hlenx hallx

/-- C6 witness: the amended theorem applied to the invalid-length input "#ab"
and to the valid all-hex input "fff". -/
theorem color_length_validation_amended_witness :
    hex_to_rgba ['#','a','b'] (1/2) = Except.error "Invalid hex color format"
    ∧ ∃ out, hex_to_rgba ['f','f','f'] (1/2) = Except.ok out :=
  ⟨(color_length_validation_amended ['#','a','b'] (1/2)).1 (by decide),
   (color_length_validation_amended ['f','f','f'] (1/2)).2.2 (by decide) (by decide)⟩

/-! ## Claim C7 -/

/-- C7: parsing a 3- or 4-digit hex string yields exactly the same RGBA
result as parsing the 6- or 8-digit string obtained by doubling each nibble,
for every opacity; in particular parsing "#fff" equals parsing "#ffffff". -/
theorem nibble_doubling_equiv (s : List Char) (op : ℚ) :
    ((∀ c ∈ s, (hexVal? c).isSome) → (s.length = 3 ∨ s.length = 4)
      → hex_to_rgba s op = hex_to_rgba (double s) op)
    ∧ hex_to_rgba ['#','f','f','f'] op = hex_to_rgba ['#','f','f','f','f','f','f'] op := by
  constructor
  · intro hall hlen
    have hdrop := dropWhile_hash_of_hex hall
    have halld : ∀ c ∈ double s, (hexVal? c).isSome := fun c hc => hall c (mem_double hc)
    have hdropd := dropWhile_hash_of_hex halld
    have hld : (double s).length = 6 ∨ (double s).length = 8 := by
      rw [double_length]; omega
    simp only [hex_to_rgba, hdrop, hdropd]
    rw [if_pos (by omega), if_pos (by omega)]
    have he1 : expand s = double s := by unfold expand; rw [if_pos hlen]
    have he2 : expand (double s) = double s := by unfold expand; rw [if_neg (by omega)]
    rw [he1, he2]
  · rfl

/-- C7 witness: the equivalence applied to the 3-digit hex string "f0a"
(doubling to "ff00aa"), discharging the hex-digit and length hypotheses. -/
theorem nibble_doubling_equiv_witness :
    hex_to_rgba ['f','0','a'] 1 = hex_to_rgba (double ['f','0','a']) 1 :=
  (nibble_doubling_equiv ['f','0','a'] 1).1 (by decide) (Or.inl rfl)

/-! ## Helper lemmas about the wrap loop -/

lemma wrapStep_shift (measure : List Char → ℚ) (mw : ℚ)
    (st : List (List Char) × List Char) (w : List Char) :
    wrapStep measure mw st w
      = (st.1 ++ (wrapStep measure mw ([], st.2) w).1,
         (wrapStep measure mw ([], st.2) w).2) := by
  simp only [wrapStep]
  split_ifs <;> simp

lemma foldl_wrapStep_shift (measure : List Char → ℚ) (mw : ℚ) :
    ∀ (ws : List (List Char)) (st : List (List Char) × List Char),
    List.foldl (wrapStep measure mw) st ws
      = (st.1 ++ (List.foldl (wrapStep measure mw) ([], st.2) ws).1,
         (List.foldl (wrapStep measure mw) ([], st.2) ws).2) := by
  intro ws
  induction ws with
  | nil => intro st; simp
  | cons w ws ih =>
    intro st
    simp only [List.foldl_cons]
    rw [wrapStep_shift measure mw st w,
        ih (st.1 ++ (wrapStep measure mw ([], st.2) w).1,
            (wrapStep measure mw ([], st.2) w).2),
        ih (wrapStep measure mw ([], st.2) w)]
    simp [List.append_assoc]

lemma wrapTokens_eq_amended (measure : List Char → ℚ) (mw : ℚ) :
    ∀ (ws : List (List Char)) (line : List Char),
    (List.foldl (wrapStep measure mw) ([], line) ws).1
      ++ [strip (List.foldl (wrapStep measure mw) ([], line) ws).2]
      = amendedWrap measure mw ws line := by
  intro ws
  induction ws with
  | nil => intro line; simp [amendedWrap]
  | cons w ws ih =>
    intro line
    simp only [List.foldl_cons, amendedWrap]
    rw [foldl_wrapStep_shift]
    simp only [wrapStep]
    split_ifs <;> simp [← ih, List.append_assoc]

/-! ## Claim C2 -/

/-- C2 counterexample: with the character-count measure and max_width 6, on
"ab cd" the code measures "ab cd" (5 < 6) and keeps both words on one line,
while the claim's reference algorithm measures the tentative line with its
trailing space ("ab cd ", 6, not < 6) and breaks into two lines.  So wrap
does not equal the reference algorithm that measures the tentative line
including the trailing space. -/
theorem wrap_measures_without_trailing_space_cex :
    wrapLines (fun l => (l.length : ℚ)) 6 ['a','b',' ','c','d'] = [['a','b',' ','c','d']]
    ∧ specRefWrap (fun l => (l.length : ℚ)) 6 (tokenize ['a','b',' ','c','d']) []
        = [['a','b'], ['c','d']]
    ∧ ([['a','b',' ','c','d']] : List (List Char)) ≠ [['a','b'], ['c','d']] :=
  ⟨by decide, by decide, by decide⟩

/-- C2 amended: wrap equals the greedy reference algorithm modified so that
(1) the measured tentative line is the current line (which retains a trailing
space after each committed token) concatenated with the stripped token,
without an additional trailing space, the append of token plus trailing space
being committed exactly when that measured width is strictly less than
max_width; (2) a flushed line is stripped of surrounding whitespace on both
ends; (3) after the last token the final line is always flushed, even when
empty. -/
theorem wrap_eq_amended_reference (measure : List Char → ℚ) (max_width : ℚ)
    (text : List Char) :
    wrapLines measure max_width text
      = amendedWrap measure max_width (tokenize text) [] := by
  unfold wrapLines wrapTokens
  exact wrapTokens_eq_amended measure max_width (tokenize text) []

/-! ## Claim C8 -/

lemma wrapStep_break_snd (measure : List Char → ℚ) (mw : ℚ)
    (st : List (List Char) × List Char) {w : List Char} (h : '\n' ∈ w) :
    (wrapStep measure mw st w).2 = [] := by
  simp [wrapStep, h]

/-- C8: a token carrying an explicit line-break character closes its line:
the wrapped output is the fully flushed lines of the tokens up to and
including the break-carrying token, followed by the wrap of the remaining
tokens started from a fresh empty line — so the word carrying the break is
never merged onto the same output line as any following word, and the
boundary sits at the same relative position. -/
theorem forced_break_boundary (measure : List Char → ℚ) (max_width : ℚ)
    (text : List Char) (ws1 : List (List Char)) (w : List Char) (ws2 : List (List Char))
    (htok : tokenize text = ws1 ++ w :: ws2) (hbr : '\n' ∈ w) :
    wrapLines measure max_width text
      = (List.foldl (wrapStep measure max_width) ([], []) (ws1 ++ [w])).1
        ++ wrapTokens measure max_width ws2 := by
  unfold wrapLines wrapTokens
  rw [htok, show ws1 ++ w :: ws2 = (ws1 ++ [w]) ++ ws2 by simp, List.foldl_append]
  have hS2 : (List.foldl (wrapStep measure max_width) ([], []) (ws1 ++ [w])).2 = [] := by
    rw [List.foldl_append]
    simp only [List.foldl_cons, List.foldl_nil]
    exact wrapStep_break_snd measure max_width _ hbr
  rw [foldl_wrapStep_shift, hS2]
  simp [List.append_assoc]

/-- C8 witness: the theorem applied to the text "a\nb" with the
character-count measure and max_width 10; the break-carrying token "a\n"
closes the first line ahead of "b". -/
theorem forced_break_boundary_witness :
    tokenize ['a','\n','b'] = [] ++ ['a','\n'] :: [['b']]
    ∧ '\n' ∈ ['a','\n']
    ∧ wrapLines (fun l => (l.length : ℚ)) 10 ['a','\n','b']
        = (List.foldl (wrapStep (fun l => (l.length : ℚ)) 10) ([], []) ([] ++ [['a','\n']])).1
          ++ wrapTokens (fun l => (l.length : ℚ)) 10 [['b']] :=
  ⟨by decide, by decide,
   forced_break_boundary (fun l => (l.length : ℚ)) 10 ['a','\n','b'] [] ['a','\n'] [['b']]
     (by decide) (by decide)⟩

/-! ## Claim C10 -/

lemma wrapStep_nofit (measure : List Char → ℚ) (mw : ℚ)
    (st : List (List Char) × List Char) (w : List Char)
    (h : ¬ measure (st.2 ++ strip w) < mw) :
    wrapStep measure mw st w
      = if '\n' ∈ w
        then (st.1 ++ [strip st.2, strip (strip w ++ [' '])], [])
        else (st.1 ++ [strip st.2], strip w ++ [' ']) := by
  simp only [wrapStep, if_neg h]
  by_cases hnl : '\n' ∈ w
  · simp [if_pos hnl]
  · simp [if_neg hnl]

/-- C10: when the very first token does not fit (its measured width together
with the empty accumulating line is not strictly below max_width), the empty
initial line buffer is flushed first, so the wrapped output begins with an
empty line. -/
theorem first_token_unfit_empty_line (measure : List Char → ℚ) (max_width : ℚ)
    (text : List Char) (w : List Char) (ws : List (List Char))
    (htok : tokenize text = w :: ws)
    (hnofit : ¬ measure (strip w) < max_width) :
    ∃ rest, wrapLines measure max_width text = [] :: rest := by
  unfold wrapLines wrapTokens
  rw [htok]
  simp only [List.foldl_cons]
  rw [foldl_wrapStep_shift]
  have hcond : ¬ measure ((([], []) : List (List Char) × List Char).2 ++ strip w)
      < max_width := by
    simpa using hnofit
  have hstep : ∃ T, (wrapStep measure max_width ([], []) w).1 = [] :: T := by
    rw [wrapStep_nofit measure max_width ([], []) w hcond]
    by_cases hnl : '\n' ∈ w
    · refine ⟨[strip (strip w ++ [' '])], ?_⟩
      rw [if_pos hnl]
      simp [strip]
    · refine ⟨[], ?_⟩
      rw [if_neg hnl]
      simp [strip]
  set F := List.foldl (wrapStep measure max_width)
      ([], (wrapStep measure max_width ([], []) w).2) ws with hF
  obtain ⟨T, hT⟩ := hstep
  rw [hT]
  exact ⟨T ++ (F.1 ++ [strip F.2]), by simp⟩

/-- C10 witness: the theorem applied to the single-token text "hi" with the
character-count measure and max_width 0 (the token cannot fit), whose wrap
indeed starts with an empty line. -/
theorem first_token_unfit_empty_line_witness :
    tokenize ['h','i'] = ['h','i'] :: []
    ∧ ¬ ((['h','i'].length : ℚ) < 0)
    ∧ ∃ rest, wrapLines (fun l => (l.length : ℚ)) 0 ['h','i'] = [] :: rest :=
  ⟨by decide, by decide,
   first_token_unfit_empty_line (fun l => (l.length : ℚ)) 0 ['h','i'] ['h','i'] []
     (by decide) (by decide)⟩

/-! ## Claim C9 -/

lemma mem_of_mem_dropWhile {c : Char} {p : Char → Bool} :
    ∀ {l : List Char}, c ∈ l.dropWhile p → c ∈ l := by
  intro l
  induction l with
  | nil => intro h; simpa using h
  | cons a as ih =>
    intro h
    rw [List.dropWhile_cons] at h
    by_cases hp : p a = true
    · rw [if_pos hp] at h
      exact List.mem_cons_of_mem _ (ih h)
    · rw [if_neg hp] at h
      exact h

lemma mem_strip {c : Char} {l : List Char} (h : c ∈ strip l) : c ∈ l := by
  unfold strip at h
  rw [List.mem_reverse] at h
  have h1 := mem_of_mem_dropWhile h
  rw [List.mem_reverse] at h1
  exact mem_of_mem_dropWhile h1

lemma dropWhile_append_char (p : Char → Bool) :
    ∀ (l m : List Char),
    (l ++ m).dropWhile p
      = if (l.dropWhile p).isEmpty then m.dropWhile p else l.dropWhile p ++ m := by
  intro l m
  induction l with
  | nil => simp
  | cons a as ih =>
    simp only [List.cons_append, List.dropWhile_cons]
    by_cases hp : p a = true
    · rw [if_pos hp, if_pos hp, ih]
    · rw [if_neg hp, if_neg hp]
      simp

lemma strip_append_space (l : List Char) : strip (l ++ [' ']) = strip l := by
  unfold strip
  rw [dropWhile_append_char]
  by_cases he : (l.dropWhile pyws).isEmpty
  · rw [if_pos he, List.isEmpty_iff.mp he]
    rfl
  · rw [if_neg he, List.reverse_append]
    rfl

lemma pysplit_ne_nil (sep : Char) (l : List Char) : pysplit sep l ≠ [] := by
  cases l with
  | nil => simp [pysplit]
  | cons c cs =>
    simp only [pysplit]
    cases hres : pysplit sep cs with
    | nil => simp
    | cons t ts =>
      by_cases hc : c = sep
      · simp [hc]
      · simp [hc]

lemma not_mem_pysplit {sep : Char} :
    ∀ {l t : List Char}, t ∈ pysplit sep l → sep ∉ t := by
  intro l
  induction l with
  | nil =>
    intro t ht
    simp only [pysplit, List.mem_singleton] at ht
    subst ht
    simp
  | cons c cs ih =>
    intro t ht
    cases hres : pysplit sep cs with
    | nil => exact absurd hres (pysplit_ne_nil sep cs)
    | cons t0 ts =>
      simp only [pysplit, hres] at ht
      by_cases hc : c = sep
      · rw [if_pos hc] at ht
        rcases List.mem_cons.mp ht with rfl | h
        · simp
        · exact ih (hres ▸ h)
      · rw [if_neg hc] at ht
        rcases List.mem_cons.mp ht with rfl | h
        · intro hmem
          rcases List.mem_cons.mp hmem with heq | hmem0
          · exact hc heq.symm
          · exact ih (hres ▸ List.mem_cons_self t0 ts) hmem0
        · exact ih (hres ▸ List.mem_cons_of_mem t0 h)

lemma pysplit_no_sep {sep : Char} : ∀ {l : List Char}, sep ∉ l → pysplit sep l = [l] := by
  intro l
  induction l with
  | nil => intro _; rfl
  | cons c cs ih =>
    intro h
    have hc : ¬ (c = sep) := fun hcc => h (by rw [hcc]; exact List.mem_cons_self _ _)
    have hcs : sep ∉ cs := fun hm => h (List.mem_cons_of_mem _ hm)
    simp only [pysplit, ih hcs]
    rw [if_neg hc]

lemma countWords_le_one_of_no_space {l : List Char} (h : ' ' ∉ l) : countWords l ≤ 1 := by
  unfold countWords
  rw [pysplit_no_sep h]
  by_cases he : l.isEmpty
  · simp [List.filter, he]
  · simp [List.filter, he]

lemma wrap_no_space_aux (measure : List Char → ℚ) (mw : ℚ)
    (hm : ∀ s, 0 ≤ measure s) (hmw : mw ≤ 0) :
    ∀ (ws : List (List Char)) (st : List (List Char) × List Char),
    (∀ w ∈ ws, ' ' ∉ w) → (∀ l ∈ st.1, ' ' ∉ l) →
    (st.2 = [] ∨ ∃ t, ' ' ∉ t ∧ st.2 = t ++ [' ']) →
    (∀ l ∈ (List.foldl (wrapStep measure mw) st ws).1, ' ' ∉ l)
    ∧ ((List.foldl (wrapStep measure mw) st ws).2 = []
       ∨ ∃ t, ' ' ∉ t ∧ (List.foldl (wrapStep measure mw) st ws).2 = t ++ [' ']) := by
  intro ws
  induction ws with
  | nil =>
    intro st _ h1 h2
    exact ⟨h1, h2⟩
  | cons w ws ih =>
    intro st hws h1 h2
    simp only [List.foldl_cons]
    have hw : ' ' ∉ w := hws w (List.mem_cons_self _ _)
    have hword : ' ' ∉ strip w := fun hc => hw (mem_strip hc)
    have hflush : ' ' ∉ strip st.2 := by
      rcases h2 with h | ⟨t, ht, heq⟩
      · rw [h]; intro hc; simpa using mem_strip hc
      · rw [heq, strip_append_space]; exact fun hc => ht (mem_strip hc)
    have hnofit : ¬ measure (st.2 ++ strip w) < mw :=
      not_lt.mpr (le_trans hmw (hm _))
    rw [wrapStep_nofit measure mw st w hnofit]
    by_cases hnl : '\n' ∈ w
    · rw [if_pos hnl]
      apply ih
      · exact fun w' hw' => hws w' (List.mem_cons_of_mem _ hw')
      · intro l hl
        rcases List.mem_append.mp hl with h | h
        · exact h1 l h
        · rcases List.mem_cons.mp h with rfl | h'
          · exact hflush
          · rcases List.mem_cons.mp h' with rfl | h''
            · rw [strip_append_space]
              exact fun hc => hword (mem_strip hc)
            · exact absurd h'' (List.not_mem_nil l)
      · exact Or.inl rfl
    · rw [if_neg hnl]
      apply ih
      · exact fun w' hw' => hws w' (List.mem_cons_of_mem _ hw')
      · intro l hl
        rcases List.mem_append.mp hl with h | h
        · exact h1 l h
        · rcases List.mem_cons.mp h with rfl | h'
          · exact hflush
          · exact absurd h' (List.not_mem_nil l)
      · exact Or.inr ⟨strip w, hword, rfl⟩

/-- C9: the wrap computation is a total, structurally terminating fold over
the token list (no loop, no division anywhere, so no division by zero), and
whenever max_width ≤ 0 (zero or negative usable width) every line of the
wrapped output contains at most one word, for every non-negative measure
function. -/
theorem degenerate_width_one_word_per_line (measure : List Char → ℚ) (max_width : ℚ)
    (text : List Char) (hm : ∀ s, 0 ≤ measure s) (hmw : max_width ≤ 0) :
    ∀ l ∈ wrapLines measure max_width text, countWords l ≤ 1 := by
  intro l hl
  unfold wrapLines wrapTokens at hl
  have hinv := wrap_no_space_aux measure max_width hm hmw (tokenize text) ([], [])
      (fun w hw => not_mem_pysplit (by simpa [tokenize] using hw)) (by simp) (Or.inl rfl)
  rcases List.mem_append.mp hl with h | h
  · exact countWords_le_one_of_no_space (hinv.1 l h)
  · have heq : l = strip (List.foldl (wrapStep measure max_width) ([], []) (tokenize text)).2 :=
      List.mem_singleton.mp h
    rcases hinv.2 with h2 | ⟨t, ht, h2⟩
    · rw [heq, h2]
      decide
    · rw [heq, h2, strip_append_space]
      exact countWords_le_one_of_no_space (fun hc => ht (mem_strip hc))

/-- C9 witness: the theorem applied with the non-negative character-count
measure and max_width 0 to the text "hi yo"; the line "hi" of the resulting
wrap has at most one word. -/
theorem degenerate_width_one_word_per_line_witness :
    (∀ s : List Char, 0 ≤ ((s.length : ℚ)))
    ∧ ((0:ℚ) ≤ 0)
    ∧ ['h','i'] ∈ wrapLines (fun l => (l.length : ℚ)) 0 ['h','i',' ','y','o']
    ∧ countWords ['h','i'] ≤ 1 :=
  ⟨fun s => Nat.cast_nonneg _, le_refl 0, by decide,
   degenerate_width_one_word_per_line (fun l => (l.length : ℚ)) 0 ['h','i',' ','y','o']
     (fun s => Nat.cast_nonneg _) (le_refl 0) ['h','i'] (by decide)⟩
